import Mathlib

/-!
# A shallow embedding of the `bigint` arbitrary-precision integer class

This file models the C++ class `bigint` (file `bigint.hpp`): an
arbitrary-precision signed decimal integer whose magnitude is a vector of
decimal digits stored least-significant first (`std::vector<uint8_t> digits`)
together with a sign flag (`bool is_negative`).

Digit vectors are modelled as `List Nat` (least-significant digit first).
Every place where the C++ code indexes a vector with `operator[]` — which has
no bounds check — is modelled fallibly: the embedding returns `none` when the
index is out of range, so a `some` result certifies that every index access
performed by the operation stays in bounds.  Stores into `uint8_t` are
modelled with an explicit `% 256`; `int` intermediates are exact (`Nat`/`Int`).
-/

/-- Numeric value of a least-significant-first decimal digit sequence. -/
def magVal : List Nat → Nat
  | [] => 0
  | d :: ds => d + 10 * magVal ds

/-- The `bigint` representation: `digits` least-significant first, plus the
sign flag `is_negative`. -/
structure bigint where
  digits : List Nat
  is_negative : Bool
deriving DecidableEq

/-- The integer denoted by a `bigint` representation. -/
def bigint.toInt (a : bigint) : Int :=
  if a.is_negative then -(magVal a.digits : Int) else (magVal a.digits : Int)

/-- The data-model invariants: the digit sequence is non-empty, has no
most-significant zero digit unless it is exactly `[0]`, every digit is a
decimal digit, and a zero magnitude forces a non-negative sign. -/
def Normalized (a : bigint) : Prop :=
  a.digits ≠ [] ∧ (a.digits.getLast? = some 0 → a.digits = [0]) ∧
    (∀ d ∈ a.digits, d < 10) ∧ (magVal a.digits = 0 → a.is_negative = false)

instance (a : bigint) : Decidable (Normalized a) := by
  unfold Normalized; infer_instance

/-- The `while` loop of `bigint::removeLeadingZeros`, viewed on the reversed
(most-significant-first) digit list: drop zeros from the front while more
than one digit remains. -/
def trimFront : List Nat → List Nat
  | [] => []
  | d :: ds => if d = 0 ∧ ds ≠ [] then trimFront ds else d :: ds

/-- Digit-sequence part of `bigint::removeLeadingZeros` (the loop pops from
the most-significant end of the least-significant-first vector). -/
def removeLeadingZerosDigits (l : List Nat) : List Nat :=
  (trimFront l.reverse).reverse

/-- `bigint::removeLeadingZeros`: trim most-significant zeros, then clear the
sign flag when a single digit `0` remains. -/
def bigint.removeLeadingZeros (a : bigint) : bigint :=
  let ds := removeLeadingZerosDigits a.digits
  { digits := ds
    is_negative := if ds.length = 1 ∧ ds.headD 1 = 0 then false else a.is_negative }

/-- Second loop of `bigint::addDigits`: remaining digits of the larger number
plus carry, then the leftover-carry push.  `uint8_t sum` is modelled with
`% 256` (no truncation occurs for decimal digits). -/
def addRest : List Nat → Nat → List Nat
  | [], carry => if carry ≠ 0 then [carry] else []
  | l :: ls, carry =>
      let sum := (l + carry) % 256
      sum % 10 :: addRest ls (sum / 10)

/-- First loop of `bigint::addDigits`: digit-by-digit sum over the smaller
number's digits, indexing `largerDigits[i]`.  Returns `none` when
`largerDigits` runs out while `smallerDigits` remains (the source would read
out of range there). -/
def addLoop : List Nat → List Nat → Nat → Option (List Nat)
  | ls, [], carry => some (addRest ls carry)
  | l :: ls, s :: ss, carry =>
      let sum := (l + s + carry) % 256
      (addLoop ls ss (sum / 10)).map (fun r => sum % 10 :: r)
  | [], _ :: _, _ => none

/-- `bigint::addDigits`: run the two loops, then `removeLeadingZeros`.  The
result's sign flag is `false` (the freshly default-constructed `result`). -/
def addDigits (largerDigits smallerDigits : List Nat) : Option bigint :=
  (addLoop largerDigits smallerDigits 0).map
    (fun ds => bigint.removeLeadingZeros { digits := ds, is_negative := false })

/-- Digit scan of `bigint::operator<` for non-negative operands,
most-significant digit first: the first differing digit decides. -/
def scanLtPos : List Nat → List Nat → Bool
  | a :: as1, b :: bs1 =>
      if a < b then true else if b < a then false else scanLtPos as1 bs1
  | _, _ => false

/-- Digit scan of `bigint::operator<` for negative operands: the direction of
the digit comparison is reversed. -/
def scanLtNeg : List Nat → List Nat → Bool
  | a :: as1, b :: bs1 =>
      if b < a then true else if a < b then false else scanLtNeg as1 bs1
  | _, _ => false

/-- `bigint::operator<`: sign test, then digit-count test (with no
sign-dependent adjustment in the source), then the per-sign digit scan. -/
def bigint.lt (a b : bigint) : Bool :=
  if a.is_negative ∧ ¬ b.is_negative then true
  else if ¬ a.is_negative ∧ b.is_negative then false
  else if a.digits.length < b.digits.length then true
  else if b.digits.length < a.digits.length then false
  else if ¬ a.is_negative then scanLtPos a.digits.reverse b.digits.reverse
  else scanLtNeg a.digits.reverse b.digits.reverse

/-- `bigint::operator==`: structural equality of sign flag and digit vector. -/
def bigint.beq (a b : bigint) : Bool :=
  a.is_negative == b.is_negative && a.digits == b.digits

/-- `bigint::operator<=`. -/
def bigint.le (a b : bigint) : Bool := a.lt b || a.beq b

/-- `bigint::operator>=` (defined in the source as `!(*this < other)`). -/
def bigint.ge (a b : bigint) : Bool := ! a.lt b

/-- First loop of `bigint::subtractDigits`: digit-by-digit difference with
borrow over the smaller number's digits, indexing `larger.digits[i]`.
Returns `none` when `larger` runs out while `smaller` remains (the source
would read out of range there).  The `static_cast<uint8_t>` store is the
`% 256` on the pushed value. -/
def subLoop : List Nat → List Nat → Int → Option (List Nat)
  | ls, [], borrow => some (subRest ls borrow)
  | l :: ls, s :: ss, borrow =>
      let diff := (l : Int) - (s : Int) - borrow
      if diff < 0 then (subLoop ls ss 1).map (fun r => ((diff + 10) % 256).toNat :: r)
      else (subLoop ls ss 0).map (fun r => (diff % 256).toNat :: r)
  | [], _ :: _, _ => none
where
  /-- Second loop of `bigint::subtractDigits`: remaining digits of the larger
  number minus the running borrow. -/
  subRest : List Nat → Int → List Nat
  | [], _ => []
  | l :: ls, borrow =>
      let diff := (l : Int) - borrow
      if diff < 0 then ((diff + 10) % 256).toNat :: subRest ls 1
      else (diff % 256).toNat :: subRest ls 0

/-- `bigint::subtractDigits`: the caller presets `result.is_negative` and
passes an empty `result`; digits are pushed, then `removeLeadingZeros`. -/
def subtractDigits (resultNeg : Bool) (larger smaller : bigint) : Option bigint :=
  (subLoop larger.digits smaller.digits 0).map
    (fun ds => bigint.removeLeadingZeros { digits := ds, is_negative := resultNeg })

/-- `bigint::operator-` (binary).  Same sign: branch on the source's
comparison operators and subtract digit vectors; differing sign: add the
digit vectors (larger-by-digit-count first) and give the result the first
operand's sign (assigned after `addDigits` has already normalized). -/
def bigint.sub (a b : bigint) : Option bigint :=
  if a.is_negative = b.is_negative then
    if a.is_negative then
      if a.le b then subtractDigits true a b
      else subtractDigits false b a
    else
      if a.ge b then subtractDigits a.is_negative a b
      else subtractDigits (! a.is_negative) b a
  else
    (if b.digits.length ≤ a.digits.length then addDigits a.digits b.digits
     else addDigits b.digits a.digits).map
      (fun r => { r with is_negative := a.is_negative })

/-- `bigint::operator-` (unary negation): flip the sign flag only. -/
def bigint.neg (a : bigint) : bigint := { a with is_negative := ! a.is_negative }

/-- `bigint::operator+`.  Same sign: add digit vectors (larger-by-digit-count
first) and give the result the common sign (assigned after `addDigits` has
already normalized); differing sign: `*this - (-other)`. -/
def bigint.add (a b : bigint) : Option bigint :=
  if a.is_negative = b.is_negative then
    (if b.digits.length ≤ a.digits.length then addDigits a.digits b.digits
     else addDigits b.digits a.digits).map
      (fun r => { r with is_negative := a.is_negative })
  else a.sub b.neg

/-- Bounds-checked store into the result buffer, modelling
`result.digits[k] = v` (no bounds check in the source). -/
def setIdx (l : List Nat) (i v : Nat) : Option (List Nat) :=
  if i < l.length then some (l.set i v) else none

/-- Inner loop of `bigint::operator*`: for a fixed digit `ai = digits[i]`,
accumulate `ai * other.digits[j]` into `result.digits[i + j]` with carry. -/
def mulInner (ai : Nat) : List Nat → Nat → Nat → List Nat → Nat →
    Option (List Nat × Nat)
  | [], _, _, buf, carry => some (buf, carry)
  | bj :: bs, i, j, buf, carry =>
      (buf[i + j]?).bind (fun cur =>
        let multi := ai * bj + cur + carry
        (setIdx buf (i + j) (multi % 10)).bind (fun buf2 =>
          mulInner ai bs i (j + 1) buf2 (multi / 10)))

/-- Outer loop of `bigint::operator*`: after each inner pass, add the
leftover carry into `result.digits[i + other.digits.size()]` (a `uint8_t`
`+=`, hence the `% 256`). -/
def mulOuter (bs : List Nat) : List Nat → Nat → List Nat → Option (List Nat)
  | [], _, buf => some buf
  | ai :: arest, i, buf =>
      (mulInner ai bs i 0 buf 0).bind (fun pr =>
        (pr.1[i + bs.length]?).bind (fun cur =>
          (setIdx pr.1 (i + bs.length) ((cur + pr.2) % 256)).bind (fun buf2 =>
            mulOuter bs arest (i + 1) buf2)))

/-- `bigint::operator*`: sign is the XOR of the operand signs, the buffer is
`digits.size() + other.digits.size()` zeros, then the two loops and a final
`removeLeadingZeros` (which also clears the sign of a zero product). -/
def bigint.mul (a b : bigint) : Option bigint :=
  let buf := List.replicate (a.digits.length + b.digits.length) 0
  (mulOuter b.digits a.digits 0 buf).map
    (fun ds => bigint.removeLeadingZeros
      { digits := ds, is_negative := a.is_negative != b.is_negative })

/-- The single error kind of the text constructor. -/
inductive ParseError where
  | InvalidFormat
deriving DecidableEq

/-- `std::isdigit` on an ASCII character. -/
def isDigitChar (c : Char) : Bool := 48 ≤ c.toNat && c.toNat ≤ 57

/-- `value[i-1] - '0'` for a character of the input string. -/
def charVal (c : Char) : Nat := c.toNat - 48

/-- The digit loop of `bigint::bigint(const std::string&)`, over the
characters after the optional sign, processed from the last character toward
the first (so digits come out least-significant first); a non-digit raises
`InvalidFormat`. -/
def parseLoop : List Char → Except ParseError (List Nat)
  | [] => Except.ok []
  | c :: cs =>
      if isDigitChar c then (parseLoop cs).map (fun ds => charVal c :: ds)
      else Except.error ParseError.InvalidFormat

/-- `bigint::bigint(const std::string&)`: reject the empty string, consume an
optional leading minus sign, run the digit loop, then `removeLeadingZeros`.
(The source runs the loop from `value.size()` down to `start`, so a lone
minus sign runs the loop zero times and is not rejected.) -/
def bigint.fromString (s : List Char) : Except ParseError bigint :=
  if s = [] then Except.error ParseError.InvalidFormat
  else
    let neg : Bool := s.headD ' ' == '-'
    let body := if neg then s.tail else s
    (parseLoop body.reverse).map
      (fun ds => bigint.removeLeadingZeros { digits := ds, is_negative := neg })

/-- `operator<<`: a minus sign when the flag is set, then each stored digit,
most-significant first, printed as the decimal representation of its
`int` value (`os << static_cast<int>(...)`). -/
def bigint.toChars (a : bigint) : List Char :=
  (if a.is_negative then [ '-' ] else []) ++
    (a.digits.reverse.map (fun d => Nat.toDigits 10 d)).flatten

/-- Two's-complement wrap into the signed 64-bit range, modelling `int64_t`
overflow on negation (undefined behaviour in C++; wraparound on common
targets). -/
def wrap64 (v : Int) : Int := (v + 2 ^ 63) % 2 ^ 64 - 2 ^ 63

/-- The digit-extraction loop of `bigint::bigint(int64_t)` once the remaining
value is non-negative. -/
def natDigitsLoop (n : Nat) : List Nat :=
  if h : n = 0 then [] else n % 10 :: natDigitsLoop (n / 10)
decreasing_by exact Nat.div_lt_self (Nat.pos_of_ne_zero h) (by omega)

/-- `bigint::bigint(int64_t)`.  The source sets `is_negative` only on the
negative branch; its indeterminate initial value on the non-negative path is
taken here as the explicit argument `undef`.  `value = -value` is the
wrapping 64-bit negation `wrap64`. -/
def bigint.ofInt64 (undef : Bool) (v : Int) : bigint :=
  let neg : Bool := if v < 0 then true else undef
  let v2 : Int := if v < 0 then wrap64 (-v) else v
  { digits :=
      if v2 = 0 then [0]
      else if 0 < v2 then natDigitsLoop v2.toNat
      else []
    is_negative := neg }

/-- The parse grammar of the spec: an optional leading minus sign followed by
one or more ASCII decimal digit characters. -/
def MatchesGrammar : List Char → Prop
  | [] => False
  | c :: rest =>
      if c = '-' then rest ≠ [] ∧ ∀ x ∈ rest, isDigitChar x = true
      else isDigitChar c = true ∧ ∀ x ∈ rest, isDigitChar x = true

instance (s : List Char) : Decidable (MatchesGrammar s) := by
  unfold MatchesGrammar
  cases s <;> dsimp only <;> infer_instance

/-- Modelled from the spec: the `canonical` form of valid decimal text —
leading zeros stripped and `-0` normalized to `0` (round-trip law, spec
section 8). -/
def canonicalSpec (s : List Char) : List Char :=
  let neg : Bool := s.headD ' ' == '-'
  let body := if neg then s.tail else s
  let stripped := body.dropWhile (fun c => c == '0')
  let mag := if stripped = [] then [ '0' ] else stripped
  if neg && ! (mag == [ '0' ]) then '-' :: mag else mag

/-! ## Claim theorems: comparison and the out-of-bounds subtraction paths -/

/-- C1: refuted.  The claim says add, subtract and multiply keep every digit
index in bounds for invariant-satisfying operands.  For the normalized values
`-10` and `-5` (both negative, different digit counts), `operator-` picks the
branch `subtractDigits(result, other, *this)` whose `larger` argument has
fewer digits than `smaller`, so `larger.digits[1]` is read out of range: the
embedding's out-of-range branch is reached and the operation fails. -/
theorem sub_of_negatives_reads_out_of_bounds :
    Normalized ⟨[0, 1], true⟩ ∧ Normalized ⟨[5], true⟩ ∧
      bigint.sub ⟨[0, 1], true⟩ ⟨[5], true⟩ = none := by
  refine ⟨by decide, by decide, ?_⟩
  rfl

/-- C2: refuted.  For the normalized same-sign negative values `-5` (one
magnitude digit) and `-10` (two magnitude digits), the claim says `a < b`
holds iff `a`'s magnitude has more digits; here `a` has fewer digits, yet
`operator<` returns `true` (its digit-count branch ignores the sign). -/
theorem lt_digit_count_ignores_sign :
    Normalized ⟨[5], true⟩ ∧ Normalized ⟨[0, 1], true⟩ ∧
      (bigint.digits ⟨[5], true⟩).length < (bigint.digits ⟨[0, 1], true⟩).length ∧
      bigint.lt ⟨[5], true⟩ ⟨[0, 1], true⟩ = true := by
  refine ⟨by decide, by decide, by decide, ?_⟩
  rfl

/-- C3: refuted.  For the normalized values `-5` and `-10`, the exact
difference is `5`, but `operator-` takes the both-negative branch
`subtractDigits(result, *this, other)` with the one-digit magnitude of `-5`
as `larger` and the two-digit magnitude of `-10` as `smaller`, reading
`larger.digits[1]` out of range: the subtraction produces no value at all. -/
theorem sub_fails_on_negative_operands :
    Normalized ⟨[5], true⟩ ∧ Normalized ⟨[0, 1], true⟩ ∧
      bigint.sub ⟨[5], true⟩ ⟨[0, 1], true⟩ = none := by
  refine ⟨by decide, by decide, ?_⟩
  rfl

/-- C4: refuted.  For the normalized values `-10` and `5`, the exact sum is
`-5`, but `operator+` delegates the mixed-sign case to `*this - (-other)`,
i.e. `(-10) - (-5)`, whose both-negative branch reads a digit out of range:
the addition produces no value at all. -/
theorem add_fails_on_mixed_sign_operands :
    Normalized ⟨[0, 1], true⟩ ∧ Normalized ⟨[5], false⟩ ∧
      bigint.add ⟨[0, 1], true⟩ ⟨[5], false⟩ = none := by
  refine ⟨by decide, by decide, ?_⟩
  rfl

/-! ## Claim theorems: construction -/

/-- C6: refuted.  The claim says a sign character with no following digits
fails with `InvalidFormat`, but the string constructor runs its digit loop
from `value.size()` down to `start = 1` zero times on the input `"-"` and
returns normally, yielding a value with an empty digit vector and the
negative flag set. -/
theorem fromString_accepts_lone_minus :
    bigint.fromString [ '-' ] = Except.ok ⟨[], true⟩ := by
  rfl

/-- C7: refuted.  The claim says every value produced by a public operation
satisfies the data-model invariants, but constructing from the minimum
64-bit integer negates `value` naively; the wrapped result stays negative,
both digit-producing branches are skipped, and the digit sequence comes out
empty — violating invariant 1 (and the value reads back as zero with the
negative flag set, violating invariant 3). -/
theorem ofInt64_min_violates_invariants :
    bigint.ofInt64 false (-(2 ^ 63)) = ⟨[], true⟩ ∧
      ¬ Normalized (bigint.ofInt64 false (-(2 ^ 63))) := by
  refine ⟨by rfl, ?_⟩
  intro h
  rw [show bigint.ofInt64 false (-(2 ^ 63)) = ⟨[], true⟩ from rfl] at h
  exact h.1 rfl

/-- C8: refuted.  The claim says construction from any signed 64-bit integer,
including `-2^63`, yields its normalized decimal representation with the
boundary widened or special-cased.  The source instead negates naively
(`value = -value` overflows `int64_t`); under wraparound the value stays
negative, the digit loop never runs, and the result is the empty digit
sequence — not the 19-digit magnitude of `2^63` — whichever indeterminate
initial sign-flag value `u` the uninitialized member had. -/
theorem ofInt64_min_not_decimal_rep :
    (∀ u : Bool, bigint.ofInt64 u (-(2 ^ 63)) = ⟨[], true⟩) ∧
      (bigint.ofInt64 false (-(2 ^ 63))).toInt ≠ -(2 ^ 63) := by
  constructor
  · intro u
    cases u <;> rfl
  · intro h
    rw [show bigint.ofInt64 false (-(2 ^ 63)) = ⟨[], true⟩ from rfl] at h
    simp [bigint.toInt, magVal] at h

/-- C10: confirmed.  Unary negation only flips the sign flag, so negating
twice is the structural identity even on representations that violate the
invariants, and `operator==` (structural comparison) accepts the result. -/
theorem neg_neg_beq_self (a : bigint) : (a.neg.neg).beq a = true := by
  simp [bigint.neg, bigint.beq]

/-! ## Lemmas about `removeLeadingZeros` -/

lemma magVal_append_zero (l : List Nat) : magVal (l ++ [0]) = magVal l := by
  induction l with
  | nil => simp [magVal]
  | cons d ds ih => simp [magVal, ih]

lemma trimFront_ne_nil {m : List Nat} (h : m ≠ []) : trimFront m ≠ [] := by
  induction m with
  | nil => exact absurd rfl h
  | cons d ds ih =>
    rw [trimFront]
    by_cases hc : d = 0 ∧ ds ≠ []
    · rw [if_pos hc]
      exact ih hc.2
    · simp [hc]

lemma trimFront_subset {m : List Nat} {d : Nat} (h : d ∈ trimFront m) : d ∈ m := by
  induction m with
  | nil => simp [trimFront] at h
  | cons x xs ih =>
    rw [trimFront] at h
    by_cases hc : x = 0 ∧ xs ≠ []
    · rw [if_pos hc] at h
      exact List.mem_cons_of_mem _ (ih h)
    · rw [if_neg hc] at h
      exact h

lemma trimFront_magVal (m : List Nat) :
    magVal (trimFront m).reverse = magVal m.reverse := by
  induction m with
  | nil => rfl
  | cons d ds ih =>
    rw [trimFront]
    by_cases hc : d = 0 ∧ ds ≠ []
    · rw [if_pos hc, ih, List.reverse_cons, hc.1, magVal_append_zero]
    · rw [if_neg hc]

lemma trimFront_head_zero {m : List Nat} (h : (trimFront m).head? = some 0) :
    trimFront m = [0] := by
  induction m with
  | nil => simp [trimFront] at h
  | cons d ds ih =>
    rw [trimFront] at h ⊢
    by_cases hc : d = 0 ∧ ds ≠ []
    · rw [if_pos hc] at h ⊢
      exact ih h
    · rw [if_neg hc] at h ⊢
      simp only [List.head?_cons, Option.some.injEq] at h
      subst h
      rcases Decidable.not_and_iff_or_not.mp hc with h0 | hds
      · exact absurd rfl h0
      · have : ds = [] := Decidable.not_not.mp hds
        rw [this]

lemma magVal_all_zero {l : List Nat} (h : magVal l = 0) : ∀ d ∈ l, d = 0 := by
  induction l with
  | nil => simp
  | cons x xs ih =>
    rw [magVal] at h
    intro d hd
    rcases List.mem_cons.mp hd with rfl | hmem
    · omega
    · exact ih (by omega) d hmem

/-- The trimmed digit list of `removeLeadingZeros`: value preserved. -/
lemma removeLeadingZerosDigits_magVal (l : List Nat) :
    magVal (removeLeadingZerosDigits l) = magVal l := by
  rw [removeLeadingZerosDigits, trimFront_magVal, List.reverse_reverse]

lemma removeLeadingZerosDigits_ne_nil {l : List Nat} (h : l ≠ []) :
    removeLeadingZerosDigits l ≠ [] := by
  rw [removeLeadingZerosDigits]
  intro hc
  rw [List.reverse_eq_nil_iff] at hc
  exact trimFront_ne_nil (by simpa using h) hc

lemma removeLeadingZerosDigits_subset {l : List Nat} {d : Nat}
    (h : d ∈ removeLeadingZerosDigits l) : d ∈ l := by
  rw [removeLeadingZerosDigits, List.mem_reverse] at h
  exact List.mem_reverse.mp (trimFront_subset h)

lemma removeLeadingZerosDigits_trimmed {l : List Nat}
    (h : (removeLeadingZerosDigits l).getLast? = some 0) :
    removeLeadingZerosDigits l = [0] := by
  rw [removeLeadingZerosDigits] at h ⊢
  rw [List.getLast?_reverse] at h
  rw [trimFront_head_zero h]
  rfl

lemma removeLeadingZerosDigits_eq_zero {l : List Nat} (hne : l ≠ [])
    (h : magVal (removeLeadingZerosDigits l) = 0) :
    removeLeadingZerosDigits l = [0] := by
  have hrne : removeLeadingZerosDigits l ≠ [] := removeLeadingZerosDigits_ne_nil hne
  have hlast := List.getLast?_eq_getLast _ hrne
  have hmem := List.getLast_mem hrne
  have hz := magVal_all_zero h _ hmem
  exact removeLeadingZerosDigits_trimmed (by rw [hlast, hz])

/-- `bigint::removeLeadingZeros` establishes the data-model invariants for
any non-empty digit vector of decimal digits. -/
lemma removeLeadingZeros_normalized (l : List Nat) (s : Bool) (hne : l ≠ [])
    (hb : ∀ d ∈ l, d < 10) :
    Normalized (bigint.removeLeadingZeros ⟨l, s⟩) := by
  have hd : (bigint.removeLeadingZeros ⟨l, s⟩).digits = removeLeadingZerosDigits l := rfl
  refine ⟨?_, ?_, ?_, ?_⟩
  · rw [hd]; exact removeLeadingZerosDigits_ne_nil hne
  · rw [hd]; exact removeLeadingZerosDigits_trimmed
  · rw [hd]; exact fun d hdm => hb d (removeLeadingZerosDigits_subset hdm)
  · rw [hd]
    intro h0
    have hz := removeLeadingZerosDigits_eq_zero hne h0
    show (if (removeLeadingZerosDigits l).length = 1 ∧
        (removeLeadingZerosDigits l).headD 1 = 0 then false else s) = false
    rw [hz]
    simp

lemma removeLeadingZeros_magVal (l : List Nat) (s : Bool) :
    magVal (bigint.removeLeadingZeros ⟨l, s⟩).digits = magVal l :=
  removeLeadingZerosDigits_magVal l

/-- The sign flag survives `removeLeadingZeros` when the magnitude is
nonzero. -/
lemma removeLeadingZeros_sign (l : List Nat) (s : Bool) (h : magVal l ≠ 0) :
    (bigint.removeLeadingZeros ⟨l, s⟩).is_negative = s := by
  show (if (removeLeadingZerosDigits l).length = 1 ∧
      (removeLeadingZerosDigits l).headD 1 = 0 then false else s) = s
  by_cases hc : (removeLeadingZerosDigits l).length = 1 ∧
      (removeLeadingZerosDigits l).headD 1 = 0
  · exfalso
    obtain ⟨h1, h2⟩ := hc
    rcases hr : removeLeadingZerosDigits l with _ | ⟨d, ds⟩
    · rw [hr] at h1; simp at h1
    · rw [hr] at h1 h2
      have hds : ds = [] := by simpa using h1
      subst hds
      simp only [List.headD_cons] at h2
      subst h2
      have := removeLeadingZerosDigits_magVal l
      rw [hr] at this
      simp [magVal] at this
      exact h this.symm
  · rw [if_neg hc]

/-- Value of the result of `removeLeadingZeros` as an integer. -/
lemma removeLeadingZeros_toInt (l : List Nat) (s : Bool) :
    (bigint.removeLeadingZeros ⟨l, s⟩).toInt
      = if s then -(magVal l : Int) else (magVal l : Int) := by
  by_cases h : magVal l = 0
  · rw [bigint.toInt, removeLeadingZeros_magVal, h]
    simp
  · rw [bigint.toInt, removeLeadingZeros_magVal, removeLeadingZeros_sign l s h]

/-! ## Lemmas about the multiplication loops -/

lemma magVal_replicate_zero (n : Nat) : magVal (List.replicate n 0) = 0 := by
  induction n with
  | zero => rfl
  | succ k ih => simp [List.replicate_succ, magVal, ih]

/-- Effect of a single store on the value of the buffer, stated additively. -/
lemma magVal_set (l : List Nat) (i v : Nat) (h : i < l.length) :
    magVal (l.set i v) + l.getD i 0 * 10 ^ i = magVal l + v * 10 ^ i := by
  induction l generalizing i with
  | nil => simp at h
  | cons d ds ih =>
    cases i with
    | zero => simp [magVal]; omega
    | succ k =>
      have hk : k < ds.length := by simpa using h
      have hrec := ih k hk
      simp only [List.set_cons_succ, magVal, List.getD_cons_succ]
      have hp : (10 : Nat) ^ (k + 1) = 10 ^ k * 10 := pow_succ 10 k
      rw [hp]
      calc d + 10 * magVal (ds.set k v) + ds.getD k 0 * (10 ^ k * 10)
          = d + 10 * (magVal (ds.set k v) + ds.getD k 0 * 10 ^ k) := by ring
        _ = d + 10 * (magVal ds + v * 10 ^ k) := by rw [hrec]
        _ = d + 10 * magVal ds + v * (10 ^ k * 10) := by ring

/-- Invariant of the inner multiplication loop: it succeeds whenever the
digit positions it touches fit in the buffer, keeps every buffer entry a
decimal digit, keeps the carry below ten, leaves positions from
`i + j + bs.length` on unchanged, and accounts exactly for
`ai * magVal bs` scaled to position `i + j`. -/
lemma mulInner_spec (ai : Nat) (bs : List Nat) :
    ∀ (j : Nat) (buf : List Nat) (carry i : Nat),
      ai < 10 → (∀ d ∈ bs, d < 10) → (∀ d ∈ buf, d < 10) → carry < 10 →
      i + j + bs.length ≤ buf.length →
      ∃ buf2 carry2, mulInner ai bs i j buf carry = some (buf2, carry2) ∧
        buf2.length = buf.length ∧ (∀ d ∈ buf2, d < 10) ∧ carry2 < 10 ∧
        magVal buf2 + carry2 * 10 ^ (i + j + bs.length)
          = magVal buf + (ai * magVal bs + carry) * 10 ^ (i + j) ∧
        (∀ k, i + j + bs.length ≤ k → buf2[k]? = buf[k]?) := by
  induction bs with
  | nil =>
    intro j buf carry i _ _ hbuf hc _
    refine ⟨buf, carry, rfl, rfl, hbuf, hc, ?_, fun k _ => rfl⟩
    simp [magVal]
  | cons bj bs ih =>
    intro j buf carry i hai hbs hbuf hc hlen
    have hL : i + j + (bs.length + 1) ≤ buf.length := by simpa using hlen
    have hij : i + j < buf.length := by omega
    have hbj : bj < 10 := hbs bj (by simp)
    have hbs2 : ∀ d ∈ bs, d < 10 := fun d hd => hbs d (List.mem_cons_of_mem _ hd)
    have hcur : buf[i + j]? = some (buf.get ⟨i + j, hij⟩) := by
      rw [List.getElem?_eq_getElem hij]; rfl
    set cur := buf.get ⟨i + j, hij⟩ with hcurdef
    have hcur10 : cur < 10 := hbuf cur (by rw [hcurdef]; exact List.get_mem buf (i + j) hij)
    set multi := ai * bj + cur + carry with hmulti
    have hmulti99 : multi ≤ 99 := by
      rw [hmulti]
      have : ai * bj ≤ 9 * 9 :=
        Nat.mul_le_mul (show ai ≤ 9 by omega) (show bj ≤ 9 by omega)
      omega
    have hcarry2 : multi / 10 < 10 := by omega
    have hset : setIdx buf (i + j) (multi % 10) = some (buf.set (i + j) (multi % 10)) := by
      rw [setIdx, if_pos hij]
    have hbufset : ∀ d ∈ buf.set (i + j) (multi % 10), d < 10 := by
      intro d hd
      rcases List.mem_or_eq_of_mem_set hd with hmem | rfl
      · exact hbuf d hmem
      · omega
    have hlen2 : i + (j + 1) + bs.length ≤ (buf.set (i + j) (multi % 10)).length := by
      simp only [List.length_set]; omega
    obtain ⟨buf2, carry2, heq2, hl2, hb2, hc2, hval2, hpres2⟩ :=
      ih (j + 1) (buf.set (i + j) (multi % 10)) (multi / 10) i hai hbs2 hbufset hcarry2 hlen2
    refine ⟨buf2, carry2, ?_, ?_, hb2, hc2, ?_, ?_⟩
    · show (buf[i + j]?).bind _ = some (buf2, carry2)
      rw [hcur]
      show (setIdx buf (i + j) (multi % 10)).bind _ = some (buf2, carry2)
      rw [hset]
      exact heq2
    · rw [hl2]; simp
    · -- the value accounting
      have hsetval := magVal_set buf (i + j) (multi % 10) hij
      have hgd : buf.getD (i + j) 0 = cur := by
        rw [List.getD_eq_getElem?_getD, hcur]; rfl
      rw [hgd] at hsetval
      have e1 : i + (j + 1) + bs.length = i + j + (bs.length + 1) := by omega
      rw [e1] at hval2
      have e2 : (10 : Nat) ^ (i + (j + 1)) = 10 ^ (i + j) * 10 := by
        have : i + (j + 1) = (i + j) + 1 := by omega
        rw [this, pow_succ]
      rw [e2] at hval2
      apply Nat.add_right_cancel (m := cur * 10 ^ (i + j))
      calc magVal buf2 + carry2 * 10 ^ (i + j + (bs.length + 1)) + cur * 10 ^ (i + j)
          = (magVal (buf.set (i + j) (multi % 10))
              + (ai * magVal bs + multi / 10) * (10 ^ (i + j) * 10)) + cur * 10 ^ (i + j) := by
            rw [hval2]
        _ = (magVal (buf.set (i + j) (multi % 10)) + cur * 10 ^ (i + j))
              + (ai * magVal bs + multi / 10) * (10 ^ (i + j) * 10) := by ring
        _ = (magVal buf + (multi % 10) * 10 ^ (i + j))
              + (ai * magVal bs + multi / 10) * (10 ^ (i + j) * 10) := by rw [hsetval]
        _ = magVal buf + (multi % 10 + 10 * (multi / 10)) * 10 ^ (i + j)
              + ai * magVal bs * (10 ^ (i + j) * 10) := by ring
        _ = magVal buf + multi * 10 ^ (i + j)
              + ai * magVal bs * (10 ^ (i + j) * 10) := by rw [Nat.mod_add_div]
        _ = magVal buf + (ai * magVal (bj :: bs) + carry) * 10 ^ (i + j)
              + cur * 10 ^ (i + j) := by
            rw [hmulti]
            show magVal buf + (ai * bj + cur + carry) * 10 ^ (i + j)
                + ai * magVal bs * (10 ^ (i + j) * 10)
              = magVal buf + (ai * (bj + 10 * magVal bs) + carry) * 10 ^ (i + j)
                + cur * 10 ^ (i + j)
            ring
    · intro k hk
      have hk1 : i + j + (bs.length + 1) ≤ k := by simpa using hk
      have hk2 : i + (j + 1) + bs.length ≤ k := by omega
      rw [hpres2 k hk2]
      exact List.getElem?_set_ne (by omega)

/-- Invariant of the outer multiplication loop: starting at outer index `i`
with a buffer whose positions from `i + bs.length` on are still zero, the
loop succeeds, keeps every entry a decimal digit, and adds exactly
`magVal arest * magVal bs` scaled to position `i`. -/
lemma mulOuter_spec (bs : List Nat) (arest : List Nat) :
    ∀ (i : Nat) (buf : List Nat),
      (∀ d ∈ bs, d < 10) → (∀ d ∈ arest, d < 10) → (∀ d ∈ buf, d < 10) →
      buf.length = i + arest.length + bs.length →
      (∀ k, i + bs.length ≤ k → buf.getD k 0 = 0) →
      ∃ buf2, mulOuter bs arest i buf = some buf2 ∧ buf2.length = buf.length ∧
        (∀ d ∈ buf2, d < 10) ∧
        magVal buf2 = magVal buf + magVal arest * magVal bs * 10 ^ i := by
  induction arest with
  | nil =>
    intro i buf _ _ hbuf _ _
    exact ⟨buf, rfl, rfl, hbuf, by simp [magVal]⟩
  | cons ai arest ih =>
    intro i buf hbs ha hbuf hlen hz
    have hai : ai < 10 := ha ai (by simp)
    have ha2 : ∀ d ∈ arest, d < 10 := fun d hd => ha d (List.mem_cons_of_mem _ hd)
    have hlen1 : buf.length = i + (arest.length + 1) + bs.length := by simpa using hlen
    obtain ⟨buf1, c1, heq1, hl1, hb1, hc1, hval1, hpres1⟩ :=
      mulInner_spec ai bs 0 buf 0 i hai hbs hbuf (by omega) (by omega)
    have him : i + bs.length < buf1.length := by omega
    have himb : i + bs.length < buf.length := by omega
    have hread : buf[i + bs.length]? = some 0 := by
      have hg := hz (i + bs.length) (le_refl _)
      rw [List.getD_eq_getElem?_getD, List.getElem?_eq_getElem himb] at hg
      rw [List.getElem?_eq_getElem himb]
      exact congrArg some hg
    have hread1 : buf1[i + bs.length]? = some 0 := by
      rw [hpres1 (i + bs.length) (by omega)]
      exact hread
    have hset : setIdx buf1 (i + bs.length) ((0 + c1) % 256)
        = some (buf1.set (i + bs.length) ((0 + c1) % 256)) := by
      rw [setIdx, if_pos him]
    have hc1v : (0 + c1) % 256 = c1 := by omega
    set buf3 := buf1.set (i + bs.length) ((0 + c1) % 256) with hbuf3
    have hb3 : ∀ d ∈ buf3, d < 10 := by
      intro d hd
      rcases List.mem_or_eq_of_mem_set hd with hmem | rfl
      · exact hb1 d hmem
      · omega
    have hl3 : buf3.length = buf.length := by
      rw [hbuf3]; simp [hl1]
    have hval3 : magVal buf3 = magVal buf + ai * magVal bs * 10 ^ i := by
      have hsv := magVal_set buf1 (i + bs.length) ((0 + c1) % 256) him
      have hgd1 : buf1.getD (i + bs.length) 0 = 0 := by
        rw [List.getD_eq_getElem?_getD, hread1]; rfl
      rw [hgd1] at hsv
      simp only [Nat.zero_mul, Nat.add_zero] at hsv
      rw [hbuf3, hsv, hc1v]
      have hv1 : magVal buf1 + c1 * 10 ^ (i + 0 + bs.length)
          = magVal buf + (ai * magVal bs + 0) * 10 ^ (i + 0) := hval1
      simp only [Nat.add_zero] at hv1
      exact hv1
    have hz3 : ∀ k, (i + 1) + bs.length ≤ k → buf3.getD k 0 = 0 := by
      intro k hk
      have hne : i + bs.length ≠ k := by omega
      have : buf3[k]? = buf1[k]? := by
        rw [hbuf3]
        exact List.getElem?_set_ne hne
      rw [List.getD_eq_getElem?_getD, this, hpres1 k (by omega),
        ← List.getD_eq_getElem?_getD]
      exact hz k (by omega)
    have hlen3 : buf3.length = (i + 1) + arest.length + bs.length := by
      rw [hl3]; omega
    obtain ⟨buf2, heq2, hl2, hb2, hval2⟩ := ih (i + 1) buf3 hbs ha2 hb3 hlen3 hz3
    refine ⟨buf2, ?_, by rw [hl2, hl3], hb2, ?_⟩
    · show (mulInner ai bs i 0 buf 0).bind _ = some buf2
      rw [heq1]
      show (buf1[i + bs.length]?).bind _ = some buf2
      rw [hread1]
      show (setIdx buf1 (i + bs.length) ((0 + c1) % 256)).bind _ = some buf2
      rw [hset]
      exact heq2
    · rw [hval2, hval3]
      show magVal buf + ai * magVal bs * 10 ^ i
            + magVal arest * magVal bs * 10 ^ (i + 1)
          = magVal buf + magVal (ai :: arest) * magVal bs * 10 ^ i
      have hmv : magVal (ai :: arest) = ai + 10 * magVal arest := rfl
      rw [hmv, pow_succ]
      ring

/-- C5: confirmed.  For any two operands satisfying the data-model
invariants, `operator*` performs every buffer access in bounds and returns
the exact integer product as a normalized value (schoolbook product of the
magnitudes in a buffer of `digits.size() + other.digits.size()` positions,
sign negative iff exactly one operand is negative, a zero product
normalized to non-negative by the final `removeLeadingZeros`). -/
theorem mul_exact (a b : bigint) (ha : Normalized a) (hb : Normalized b) :
    ∃ c, bigint.mul a b = some c ∧ Normalized c ∧
      c.toInt = a.toInt * b.toInt := by
  obtain ⟨hane, -, hadig, -⟩ := ha
  obtain ⟨hbne, -, hbdig, -⟩ := hb
  have hn : 0 < a.digits.length := List.length_pos.mpr hane
  have hm : 0 < b.digits.length := List.length_pos.mpr hbne
  have hrep : ∀ d ∈ List.replicate (a.digits.length + b.digits.length) 0, d < 10 := by
    intro d hd
    rw [List.eq_of_mem_replicate hd]
    omega
  have hzrep : ∀ k, 0 + b.digits.length ≤ k →
      (List.replicate (a.digits.length + b.digits.length) 0).getD k 0 = 0 := by
    intro k _
    rw [List.getD_eq_getElem?_getD, List.getElem?_replicate]
    by_cases hk : k < a.digits.length + b.digits.length
    · rw [if_pos hk]; rfl
    · rw [if_neg hk]; rfl
  obtain ⟨buf2, heq, hl, hbnd, hval⟩ :=
    mulOuter_spec b.digits a.digits 0
      (List.replicate (a.digits.length + b.digits.length) 0)
      hbdig hadig hrep (by simp) hzrep
  rw [magVal_replicate_zero, pow_zero, Nat.zero_add, Nat.mul_one] at hval
  have hb2ne : buf2 ≠ [] := by
    have : buf2.length ≠ 0 := by
      rw [hl, List.length_replicate]
      omega
    exact fun hc => this (by rw [hc]; rfl)
  refine ⟨bigint.removeLeadingZeros
      ⟨buf2, a.is_negative != b.is_negative⟩, ?_, ?_, ?_⟩
  · show (mulOuter b.digits a.digits 0 _).map _ = _
    rw [heq]
    rfl
  · exact removeLeadingZeros_normalized buf2 _ hb2ne hbnd
  · rw [removeLeadingZeros_toInt, hval, bigint.toInt, bigint.toInt]
    cases hna : a.is_negative <;> cases hnb : b.is_negative <;>
      simp [Int.neg_mul, Int.mul_neg]

/-- Witness for C5 at the concrete normalized operands `123` and `-45`
(product `-5535`). -/
theorem mul_exact_at_123_neg45 :
    Normalized ⟨[3, 2, 1], false⟩ ∧ Normalized ⟨[5, 4], true⟩ ∧
      ∃ c, bigint.mul ⟨[3, 2, 1], false⟩ ⟨[5, 4], true⟩ = some c ∧ Normalized c ∧
        c.toInt = (bigint.toInt ⟨[3, 2, 1], false⟩) * (bigint.toInt ⟨[5, 4], true⟩) :=
  ⟨by decide, by decide, mul_exact ⟨[3, 2, 1], false⟩ ⟨[5, 4], true⟩ (by decide) (by decide)⟩

/-! ## Lemmas about parsing and formatting -/

lemma toDigits_of_lt_ten {d : Nat} (h : d < 10) :
    Nat.toDigits 10 d = [Nat.digitChar d] := by
  interval_cases d <;> rfl

lemma digitChar_eq_ofNat {k : Nat} (hk : k < 10) :
    Nat.digitChar k = Char.ofNat (48 + k) := by
  interval_cases k <;> rfl

lemma isDigitChar_bounds {c : Char} (h : isDigitChar c = true) :
    48 ≤ c.toNat ∧ c.toNat ≤ 57 := by
  simpa [isDigitChar] using h

lemma charVal_lt_ten {c : Char} (h : isDigitChar c = true) : charVal c < 10 := by
  have h1 := isDigitChar_bounds h
  rw [charVal]
  omega

lemma digitChar_charVal {c : Char} (h : isDigitChar c = true) :
    Nat.digitChar (charVal c) = c := by
  have h1 := isDigitChar_bounds h
  have h48 : 48 + charVal c = c.toNat := by rw [charVal]; omega
  rw [digitChar_eq_ofNat (charVal_lt_ten h), h48, Char.ofNat_toNat]

lemma toDigits_charVal {c : Char} (h : isDigitChar c = true) :
    Nat.toDigits 10 (charVal c) = [c] := by
  rw [toDigits_of_lt_ten (charVal_lt_ten h), digitChar_charVal h]

lemma charVal_eq_zero {c : Char} (h : isDigitChar c = true) :
    charVal c = 0 ↔ c = '0' := by
  have h1 := isDigitChar_bounds h
  constructor
  · intro h0
    have h48 : c.toNat = 48 := by rw [charVal] at h0; omega
    have := congrArg Char.ofNat h48
    rw [Char.ofNat_toNat] at this
    exact this
  · intro h0
    subst h0
    rfl

lemma parseLoop_ok {cs : List Char} (h : ∀ c ∈ cs, isDigitChar c = true) :
    parseLoop cs = Except.ok (cs.map charVal) := by
  induction cs with
  | nil => rfl
  | cons c cs ih =>
    rw [parseLoop, if_pos (h c (by simp)),
      ih (fun x hx => h x (List.mem_cons_of_mem _ hx))]
    rfl

lemma flatten_eq_map_digitChar (T : List Nat) (h : ∀ d ∈ T, d < 10) :
    (T.map (fun d => Nat.toDigits 10 d)).flatten = T.map Nat.digitChar := by
  induction T with
  | nil => rfl
  | cons d T ih =>
    simp only [List.map_cons, List.flatten_cons,
      toDigits_of_lt_ten (h d (by simp)),
      ih (fun x hx => h x (List.mem_cons_of_mem _ hx))]
    rfl

lemma map_digitChar_eq_zero {T : List Nat} (h : ∀ d ∈ T, d < 10)
    (he : T.map Nat.digitChar = [ '0' ]) : T = [0] := by
  rcases T with _ | ⟨d, T⟩
  · simp at he
  · rcases T with _ | ⟨e, T⟩
    · simp only [List.map_cons, List.map_nil, List.cons.injEq, and_true] at he
      have hd : d < 10 := h d (by simp)
      have : d = 0 := by
        interval_cases d <;> first | rfl | exact absurd he (by decide)
      rw [this]
    · simp at he

/-- The normalization condition of `removeLeadingZeros` in terms of the
(most-significant-first) trimmed digit list. -/
lemma reverse_single_zero_iff (T : List Nat) :
    (T.reverse.length = 1 ∧ T.reverse.headD 1 = 0) ↔ T = [0] := by
  constructor
  · rintro ⟨h1, h2⟩
    rw [List.length_reverse] at h1
    rcases T with _ | ⟨d, T⟩
    · simp at h1
    · rcases T with _ | ⟨e, T⟩
      · simp only [List.reverse_cons, List.reverse_nil, List.nil_append,
          List.headD_cons] at h2
        rw [h2]
      · simp at h1
  · rintro rfl
    exact ⟨rfl, rfl⟩

/-- The printed form of the trimmed magnitude equals the spec's canonical
magnitude: the body with leading zero characters stripped, padded back to
the single character `0` when everything was stripped. -/
lemma flatten_trimFront_eq_canonicalMag (body : List Char) (hne : body ≠ [])
    (h : ∀ c ∈ body, isDigitChar c = true) :
    ((trimFront (body.map charVal)).map (fun d => Nat.toDigits 10 d)).flatten
      = (if body.dropWhile (fun c => c == '0') = [] then [ '0' ]
         else body.dropWhile (fun c => c == '0')) := by
  induction body with
  | nil => exact absurd rfl hne
  | cons c cs ih =>
    have hc : isDigitChar c = true := h c (by simp)
    have hcs : ∀ x ∈ cs, isDigitChar x = true :=
      fun x hx => h x (List.mem_cons_of_mem _ hx)
    by_cases hzero : c = '0'
    · have hval0 : charVal c = 0 := (charVal_eq_zero hc).mpr hzero
      have hdw : List.dropWhile (fun x => x == '0') (c :: cs)
          = List.dropWhile (fun x => x == '0') cs := by
        rw [List.dropWhile_cons]
        have : (c == '0') = true := by rw [hzero]; rfl
        rw [this]
        rfl
      rcases hcs0 : cs with _ | ⟨e, es⟩
      · -- a single zero character
        subst hzero
        subst hcs0
        simp only [List.map_cons, List.map_nil, trimFront, List.dropWhile]
        norm_num [charVal]
        rfl
      · rw [← hcs0]
        have hcsne : cs ≠ [] := by rw [hcs0]; exact List.cons_ne_nil _ _
        have htf : trimFront ((c :: cs).map charVal) = trimFront (cs.map charVal) := by
          simp only [List.map_cons, trimFront, hval0]
          rw [if_pos]
          exact ⟨by trivial, by simpa using hcsne⟩
        rw [htf, hdw]
        exact ih hcsne hcs
    · have hval0 : charVal c ≠ 0 := fun hv => hzero ((charVal_eq_zero hc).mp hv)
      have htf : trimFront ((c :: cs).map charVal) = charVal c :: cs.map charVal := by
        simp only [List.map_cons, trimFront]
        rw [if_neg]
        intro hand
        exact hval0 hand.1
      have hdw : List.dropWhile (fun x => x == '0') (c :: cs) = c :: cs := by
        rw [List.dropWhile_cons]
        have : (c == '0') = false := by
          rcases hbe : c == '0' with _ | _
          · rfl
          · exact absurd (eq_of_beq hbe) hzero
        rw [this]
        rfl
      rw [htf, hdw, if_neg (List.cons_ne_nil c cs)]
      simp only [List.map_cons, List.flatten_cons, toDigits_charVal hc]
      rw [flatten_eq_map_digitChar _ (fun d hd => by
        obtain ⟨x, hx, rfl⟩ := List.mem_map.mp hd
        exact charVal_lt_ten (hcs x hx))]
      show c :: (cs.map charVal).map Nat.digitChar = c :: cs
      congr 1
      rw [List.map_map]
      conv_rhs => rw [show cs = cs.map id from (List.map_id cs).symm]
      exact List.map_congr_left (fun x hx => digitChar_charVal (hcs x hx))

lemma fromString_cons_minus (rest : List Char) :
    bigint.fromString ('-' :: rest)
      = (parseLoop rest.reverse).map
          (fun ds => bigint.removeLeadingZeros ⟨ds, true⟩) := rfl

lemma fromString_cons_of_ne {c : Char} (rest : List Char) (h : (c == '-') = false) :
    bigint.fromString (c :: rest)
      = (parseLoop (c :: rest).reverse).map
          (fun ds => bigint.removeLeadingZeros ⟨ds, false⟩) := by
  show (parseLoop (if (c == '-' : Bool) then rest else c :: rest).reverse).map
      (fun ds => bigint.removeLeadingZeros ⟨ds, c == '-'⟩) = _
  rw [h]
  simp only [Bool.false_eq_true, if_false]

lemma canonicalSpec_cons_minus (rest : List Char) :
    canonicalSpec ('-' :: rest)
      = (if (! ((if rest.dropWhile (fun x => x == '0') = [] then [ '0' ]
                 else rest.dropWhile (fun x => x == '0')) == [ '0' ]))
         then '-' :: (if rest.dropWhile (fun x => x == '0') = [] then [ '0' ]
                 else rest.dropWhile (fun x => x == '0'))
         else (if rest.dropWhile (fun x => x == '0') = [] then [ '0' ]
                 else rest.dropWhile (fun x => x == '0'))) := rfl

lemma canonicalSpec_cons_of_ne {c : Char} (rest : List Char) (h : (c == '-') = false) :
    canonicalSpec (c :: rest)
      = (if (c :: rest).dropWhile (fun x => x == '0') = [] then [ '0' ]
         else (c :: rest).dropWhile (fun x => x == '0')) := by
  simp only [canonicalSpec, List.headD_cons, h, Bool.false_and, Bool.false_eq_true,
    if_false]

/-- C9: confirmed.  For every string matching the parse grammar (optional
leading minus sign, then one or more decimal digit characters), the string
constructor succeeds and printing the constructed value yields the canonical
form of the input: leading zeros stripped, a lone minus sign printed iff the
value is negative, digits most-significant first, and a minus-zero input
collapsing to the single character zero. -/
theorem fromString_toChars_canonical (s : List Char) (h : MatchesGrammar s) :
    ∃ v, bigint.fromString s = Except.ok v ∧ bigint.toChars v = canonicalSpec s := by
  rcases s with _ | ⟨c, rest⟩
  · exact absurd h (by simp [MatchesGrammar])
  simp only [MatchesGrammar] at h
  by_cases hminus : c = '-'
  · rw [if_pos hminus] at h
    obtain ⟨hne, hdig⟩ := h
    subst hminus
    have hfs : bigint.fromString ('-' :: rest)
        = Except.ok (bigint.removeLeadingZeros ⟨rest.reverse.map charVal, true⟩) := by
      rw [fromString_cons_minus,
        parseLoop_ok (fun x hx => hdig x (List.mem_reverse.mp hx))]
      rfl
    have hds : (bigint.removeLeadingZeros ⟨rest.reverse.map charVal, true⟩).digits
        = (trimFront (rest.map charVal)).reverse := by
      show removeLeadingZerosDigits (rest.reverse.map charVal)
          = (trimFront (rest.map charVal)).reverse
      rw [removeLeadingZerosDigits, List.map_reverse, List.reverse_reverse]
    have hmem : ∀ d ∈ trimFront (rest.map charVal), d < 10 := by
      intro d hd
      obtain ⟨x, hx, rfl⟩ := List.mem_map.mp (trimFront_subset hd)
      exact charVal_lt_ten (hdig x hx)
    have hbridge := flatten_trimFront_eq_canonicalMag rest hne hdig
    have hsign : (bigint.removeLeadingZeros ⟨rest.reverse.map charVal, true⟩).is_negative
        = if trimFront (rest.map charVal) = [0] then false else true := by
      show (if (removeLeadingZerosDigits (rest.reverse.map charVal)).length = 1 ∧
            (removeLeadingZerosDigits (rest.reverse.map charVal)).headD 1 = 0
          then false else true) = _
      have hr : removeLeadingZerosDigits (rest.reverse.map charVal)
          = (trimFront (rest.map charVal)).reverse := hds
      rw [hr]
      exact if_congr (reverse_single_zero_iff _) rfl rfl
    have htc : bigint.toChars (bigint.removeLeadingZeros ⟨rest.reverse.map charVal, true⟩)
        = (if (bigint.removeLeadingZeros ⟨rest.reverse.map charVal, true⟩).is_negative
           then [ '-' ] else [])
          ++ ((trimFront (rest.map charVal)).map (fun d => Nat.toDigits 10 d)).flatten := by
      rw [bigint.toChars, hds, List.reverse_reverse]
    refine ⟨_, hfs, ?_⟩
    rw [htc, hsign, canonicalSpec_cons_minus, ← hbridge]
    by_cases hTz : trimFront (rest.map charVal) = [0]
    · rw [if_pos hTz, hTz]
      rfl
    · rw [if_neg hTz]
      have hMne : ((trimFront (rest.map charVal)).map
          (fun d => Nat.toDigits 10 d)).flatten ≠ [ '0' ] := by
        intro hM
        rw [flatten_eq_map_digitChar _ hmem] at hM
        exact hTz (map_digitChar_eq_zero hmem hM)
      rw [beq_eq_false_iff_ne.mpr hMne]
      rfl
  · rw [if_neg hminus] at h
    obtain ⟨hc0, hrest⟩ := h
    have hall : ∀ x ∈ c :: rest, isDigitChar x = true := by
      intro x hx
      rcases List.mem_cons.mp hx with rfl | hx2
      · exact hc0
      · exact hrest x hx2
    have hcne : (c == '-') = false := beq_eq_false_iff_ne.mpr hminus
    have hfs : bigint.fromString (c :: rest)
        = Except.ok (bigint.removeLeadingZeros ⟨(c :: rest).reverse.map charVal, false⟩) := by
      rw [fromString_cons_of_ne rest hcne,
        parseLoop_ok (fun x hx => hall x (List.mem_reverse.mp hx))]
      rfl
    have hds : (bigint.removeLeadingZeros ⟨(c :: rest).reverse.map charVal, false⟩).digits
        = (trimFront ((c :: rest).map charVal)).reverse := by
      show removeLeadingZerosDigits ((c :: rest).reverse.map charVal)
          = (trimFront ((c :: rest).map charVal)).reverse
      rw [removeLeadingZerosDigits, List.map_reverse, List.reverse_reverse]
    have hsign : (bigint.removeLeadingZeros
        ⟨(c :: rest).reverse.map charVal, false⟩).is_negative = false := ite_self false
    have htc : bigint.toChars (bigint.removeLeadingZeros
          ⟨(c :: rest).reverse.map charVal, false⟩)
        = ((trimFront ((c :: rest).map charVal)).map
            (fun d => Nat.toDigits 10 d)).flatten := by
      rw [bigint.toChars, hds, List.reverse_reverse, hsign]
      rfl
    refine ⟨_, hfs, ?_⟩
    rw [htc, canonicalSpec_cons_of_ne rest hcne]
    exact flatten_trimFront_eq_canonicalMag (c :: rest) (List.cons_ne_nil c rest) hall

/-- Witness for C9 at the concrete grammar-matching input `"-007"`, whose
canonical form is `"-7"`. -/
theorem fromString_toChars_canonical_at_minus007 :
    MatchesGrammar [ '-' , '0', '0', '7' ] ∧
      ∃ v, bigint.fromString [ '-' , '0', '0', '7' ] = Except.ok v ∧
        bigint.toChars v = canonicalSpec [ '-' , '0', '0', '7' ] :=
  ⟨by decide, fromString_toChars_canonical [ '-' , '0', '0', '7' ] (by decide)⟩
